import Mathlib

/-
  Verification development for the ogdl graph library (Go).

  The embedding models the two source files faithfully:
  - part_000 (graph.go): the Graph data type and its operations
    (New, IsNil, Len, Depth, Equals, Add, AddNodes, addEqualNodes,
    Node, GetAt, get, set).
  - eval.go: the expression evaluator (Eval, EvalBool, EvalPath,
    EvalExpression, evalBinary, compare, logic, assign, calc).

  Modelling decisions, stated once here:
  - A Go value of type interface returned or stored by the library is one
    of: untyped nil, bool, int64, int (a distinct dynamic type in Go, and
    the two are distinguished by the type assertions in calc), float64,
    string, a byte slice, a slice of interface values (produced by the
    variadic constructor New), or a pointer to Graph (possibly a typed
    nil pointer).  These alternatives are the constructors of Value.
  - Go pointers to Graph are modelled as Option Graph; the children list
    Out has type List (Option Graph) because the index branch of set
    stores nil pointers in grown positions.
  - Go int64 arithmetic is exact Int arithmetic wrapped to the signed
    64-bit range (wrap64); quotient and remainder truncate toward zero as
    in Go.  Division or remainder by zero is a Go run-time error.
  - Go float64 is idealized as the exact rationals (Rat).  The claims
    settled against float values concern the dispatch and promotion
    structure of calc at exactly representable inputs; theorems touching
    float division carry a nonzero-divisor hypothesis because the IEEE
    infinities have no rational counterpart.
  - A Go run-time error (nil dereference, out-of-range index, division by
    zero, comparison of uncomparable types) is modelled by the value none
    of an Option-typed result; the library mutates graphs in place, so the
    mutating operations return the updated graph explicitly.
-/

mutual

/-- Dynamic (interface) values handled by the library. -/
inductive Value where
  | vnil
  | vbool (b : Bool)
  | vint64 (n : Int)
  | vgoint (n : Int)
  | vfloat (q : Rat)
  | vstr (s : String)
  | vbytes (bs : List Nat)
  | vslice (vs : List Value)
  | vgraph (g : Option Graph)

/-- Graph is a node with outgoing pointers to other Graph objects
    (source: part_000).  A pointer may be nil, hence Option. -/
inductive Graph where
  | G (This : Value) (Out : List (Option Graph))

end

/-- Field accessor for This. -/
def Graph.This : Graph → Value
  | .G t _ => t

/-- Field accessor for Out. -/
def Graph.Out : Graph → List (Option Graph)
  | .G _ o => o

/-- Modelled from the spec: the reserved structural tag for index path
    elements; the constant definitions are in repository files missing
    from src.  The concrete spelling is irrelevant to the claims, which
    only require the tags to be reserved strings. -/
def TypeIndex : String := "!i"

/-- Modelled from the spec: the reserved tag for selector path elements. -/
def TypeSelector : String := "!s"

/-- Modelled from the spec: the reserved tag for parsed path trees. -/
def TYPE_PATH : String := "!p"

/-- Modelled from the spec: the reserved tag for parsed expression trees. -/
def TYPE_EXPRESSION : String := "!e"

/-- Modelled from the spec: the reserved tag for group (argument list)
    nodes. -/
def TYPE_GROUP : String := "!g"

/-- Signed 64-bit wraparound, mapping an integer into the int64 range. -/
def wrap64 (n : Int) : Int := (n + 2 ^ 63) % 2 ^ 64 - 2 ^ 63

/-- Go int64 addition. -/
def goAdd (a b : Int) : Int := wrap64 (a + b)

/-- Go int64 subtraction. -/
def goSub (a b : Int) : Int := wrap64 (a - b)

/-- Go int64 multiplication. -/
def goMul (a b : Int) : Int := wrap64 (a * b)

/-- Go int64 quotient: truncated toward zero, wrapping on the single
    overflow case (most negative value divided by minus one). -/
def goDiv (a b : Int) : Int := wrap64 (a.tdiv b)

/-- Go int64 remainder: truncated toward zero (same sign as dividend). -/
def goMod (a b : Int) : Int := a.tmod b

/-- Truncation of a rational toward zero, as Go conversion from float64
    to an integer type (in-range case). -/
def ratTrunc (q : Rat) : Int := q.num.tdiv (q.den : Int)

/-- Go conversion from float64 to int64 or int: truncation toward zero;
    the out-of-range case is not defined by the Go spec and is modelled
    as wrapping. -/
def goIntOfFloat (q : Rat) : Int := wrap64 (ratTrunc q)

/-- Modelled from the spec: the scalar-conversion helper that renders a
    dynamic value as text (the helper library is external to the core and
    missing from src).  Strings are the identity; numbers render in
    decimal; byte sequences render as the corresponding characters; the
    renderings of slice and graph values are never used by the claims and
    are modelled as empty. -/
def goString : Value → String
  | .vnil => ""
  | .vbool b => if b then "true" else "false"
  | .vint64 n => toString n
  | .vgoint n => toString n
  | .vfloat q => toString q
  | .vstr s => s
  | .vbytes bs => String.mk (bs.map Char.ofNat)
  | .vslice _ => ""
  | .vgraph _ => ""

/-- Modelled from the spec: boolean coercion (the underscore-bool helper
    of the external conversion library).  Native booleans and the literal
    strings true and false coerce; everything else fails. -/
def boolf : Value → Option Bool
  | .vbool b => some b
  | .vstr s => if s = "true" then some true else if s = "false" then some false else none
  | _ => none

/-- Modelled from the spec: strict integer coercion; Go integers convert,
    everything else fails. -/
def int64c : Value → Option Int
  | .vint64 n => some n
  | .vgoint n => some n
  | _ => none

/-- Modelled from the spec: forcing integer coercion; Go integers
    convert, floats truncate toward zero, everything else fails. -/
def int64f : Value → Option Int
  | .vint64 n => some n
  | .vgoint n => some n
  | .vfloat q => some (ratTrunc q)
  | _ => none

/-- Modelled from the spec: strict float coercion. -/
def float64c : Value → Option Rat
  | .vfloat q => some q
  | _ => none

/-- Modelled from the spec: forcing float coercion; integers promote. -/
def float64f : Value → Option Rat
  | .vfloat q => some q
  | .vint64 n => some (n : Rat)
  | .vgoint n => some (n : Rat)
  | _ => none

/-- Decimal digit list to a natural number, most significant first. -/
def digitsToNat (cs : List Char) : Nat :=
  cs.foldl (fun acc c => acc * 10 + (c.toNat - 48)) 0

/-- Modelled from the spec: strconv.Atoi as used by the path engine on
    selector and index payloads: an optional sign followed by at least
    one decimal digit, rejecting anything else and the out-of-range
    values. -/
def atoi (s : String) : Option Int :=
  let core : List Char → Option Int := fun cs =>
    if cs = [] then none
    else if cs.all (·.isDigit) then some (digitsToNat cs) else none
  let r : Option Int :=
    match s.data with
    | '-' :: rest => (core rest).map (fun n => -n)
    | '+' :: rest => core rest
    | cs => core cs
  match r with
  | some n => if n < -(2 ^ 63) ∨ 2 ^ 63 - 1 < n then none else some n
  | none => none

/-- Modelled from the spec: the numeric-literal test of the expression
    engine (an optional leading minus sign, digits, and an optional
    fractional part). -/
def isNumber (s : String) : Bool :=
  let shape : List Char → Bool := fun cs =>
    match cs.span (·.isDigit) with
    | (ds, []) => !ds.isEmpty
    | (ds, '.' :: fs) => !ds.isEmpty && !fs.isEmpty && fs.all (·.isDigit)
    | _ => false
  match s.data with
  | '-' :: rest => shape rest
  | cs => shape cs

/-- Modelled from the spec: parsing a recognized numeric literal to its
    native form, int64 when there is no fractional part and float64
    otherwise. -/
def parseNumber (s : String) : Value :=
  let signed : List Char → (Int → Int) × List Char := fun cs =>
    match cs with
    | '-' :: rest => (fun n => -n, rest)
    | _ => (id, cs)
  let (sgn, cs) := signed s.data
  match cs.span (·.isDigit) with
  | (ds, '.' :: fs) =>
      Value.vfloat ((sgn (digitsToNat ds) : Rat) +
        (sgn (digitsToNat fs) : Rat) / ((10 : Rat) ^ fs.length))
  | (ds, _) => Value.vint64 (wrap64 (sgn (digitsToNat ds)))

/-- Modelled from the spec: the operator-character class used to dispatch
    a scalar to the binary-operator handler; the operator set is fixed. -/
def IsOperatorChar (c : Char) : Bool :=
  c = '+' ∨ c = '-' ∨ c = '*' ∨ c = '/' ∨ c = '%' ∨ c = '=' ∨
  c = '!' ∨ c = '<' ∨ c = '>' ∨ c = '&' ∨ c = '|'

/-- Modelled from the spec: the letter test of the expression engine. -/
def IsLetter (c : Char) : Bool :=
  ('a' ≤ c ∧ c ≤ 'z') ∨ ('A' ≤ c ∧ c ≤ 'Z') ∨ c = '_'

/-- Equality of two interface values, as the Go comparison in Equals:
    different dynamic types compare unequal; identical comparable types
    compare by value; identical uncomparable types (byte slices, value
    slices) are a run-time error (none).  Pointer identity of two graph
    pointers is not representable in this model; the typed nil pointers
    compare equal and two non-nil pointers are modelled as distinct
    allocations. -/
def eqValue : Value → Value → Option Bool
  | .vnil, .vnil => some true
  | .vbool a, .vbool b => some (a = b)
  | .vint64 a, .vint64 b => some (a = b)
  | .vgoint a, .vgoint b => some (a = b)
  | .vfloat a, .vfloat b => some (a = b)
  | .vstr a, .vstr b => some (a = b)
  | .vbytes _, .vbytes _ => none
  | .vslice _, .vslice _ => none
  | .vgraph none, .vgraph none => some true
  | .vgraph _, .vgraph _ => some false
  | _, _ => some false

/-- Test for the untyped nil content, as the Go comparison This == nil. -/
def Value.isNilV : Value → Bool
  | .vnil => true
  | _ => false

/-- New returns a Graph holding the (optional) objects given.  Source
    note: with at least one argument the composite literal stores the
    whole variadic slice as the content, not its first element. -/
def Graph.New (args : List Value) : Graph :=
  match args with
  | [] => .G .vnil []
  | _ => .G (.vslice args) []

/-- IsNil returns true if this node has no content (source: part_000). -/
def Graph.IsNil (g : Graph) : Bool := g.This.isNilV

/-- Len returns the out degree, with the minus-one convention on a nil
    receiver (source: part_000). -/
def Graph.Len : Option Graph → Int
  | none => -1
  | some g => g.Out.length

/-- ThisString renders the content of the node as text; the method body
    is in a repository file missing from src and is modelled from the
    spec as the text form of the scalar content. -/
def Graph.ThisString (g : Graph) : String := goString g.This

/-- Str embeds the String method of Graph (its Stringer); the body is
    missing from src and is modelled from the spec identically to
    ThisString.  It is not named String here because that would shadow
    the Lean string type inside the Graph namespace. -/
def Graph.Str (g : Graph) : String := goString g.This

/-- Add adds a subnode to the current node (source: part_000).  A non-nil
    transparent graph argument is spliced: its children are appended
    directly.  A non-nil non-transparent graph argument is appended as a
    child.  Anything else (including a nil graph pointer and untyped nil)
    is wrapped in a fresh node holding it.  Returns the updated graph
    together with the node the source returns. -/
def Graph.Add (g : Graph) (n : Value) : Graph × Graph :=
  match n with
  | .vgraph (some node) =>
      if node.IsNil then (.G g.This (g.Out ++ node.Out), node)
      else (.G g.This (g.Out ++ [some node]), node)
  | v =>
      let gg : Graph := .G v []
      (.G g.This (g.Out ++ [some gg]), gg)

/-- AddNodes appends the subnodes of the given graph (source: part_000);
    a nil argument is a no-op. -/
def Graph.AddNodes (g : Graph) : Option Graph → Graph
  | none => g
  | some g2 => .G g.This (g.Out ++ g2.Out)

/-- GetAt returns a subnode by index, or nil if the index is out of range
    (source: part_000).  The stored pointer itself may be nil. -/
def Graph.GetAt (g : Graph) (i : Int) : Option Graph :=
  if 0 ≤ i ∧ i < g.Out.length then (g.Out.get? i.toNat).getD none else none

/-- Scan of a children list for the first node whose text equals the
    given string, as the loop body of Node: reaching a nil pointer before
    a match dereferences it (none = run-time error); exhausting the list
    yields the not-found sentinel. -/
def nodeScan : List (Option Graph) → String → Option (Option Graph)
  | [], _ => some none
  | none :: _, _ => none
  | some n :: rest, s =>
      if s = goString n.This then some (some n) else nodeScan rest s

/-- Node returns the first subnode whose string value equals the given
    string, or nil when there is none (source: part_000).  The outer
    Option records the possible run-time error on a nil child. -/
def Graph.Node (g : Graph) (s : String) : Option (Option Graph) :=
  nodeScan g.Out s

mutual

/-- Depth returns the depth of the graph if it is a tree, or -1 once the
    maximum over the children exceeds 100 (source: part_000).  A nil
    child is dereferenced by the recursive call (none = run-time error).
    The source comment records that cycles are only inferred from the
    level exceeding 100. -/
def Graph.Depth : Graph → Option Int
  | .G _ out =>
    if out.length = 0 then some 0
    else
      match depthMax out with
      | none => none
      | some i => if i > 100 then some (-1) else some (i + 1)

/-- The loop of Depth: the running maximum (started at zero) of the
    recursive depths of the children. -/
def depthMax : List (Option Graph) → Option Int
  | [] => some 0
  | none :: _ => none
  | some n :: rest =>
      match n.Depth, depthMax rest with
      | some j, some i => some (max i j)
      | _, _ => none

end

mutual

/-- Equals returns true if the given graph and the receiver are equal
    (source: part_000): content compared as Go interface values, then
    child counts, then children pairwise.  none records the run-time
    error on uncomparable contents or nil children. -/
def Graph.Equals : Graph → Graph → Option Bool
  | .G gt gout, .G ct cout =>
    match eqValue ct gt with
    | none => none
    | some eq =>
        if !eq then some false
        else if gout.length ≠ cout.length then some false
        else equalsList gout cout

/-- Pairwise comparison of two children lists of equal length, as the
    loop of Equals; a nil pointer on either side is dereferenced by the
    recursive call. -/
def equalsList : List (Option Graph) → List (Option Graph) → Option Bool
  | [], _ => some true
  | _ :: _, [] => some true
  | some a :: as_, some b :: bs_ =>
      match a.Equals b with
      | none => none
      | some false => some false
      | some true => equalsList as_ bs_
  | _, _ => none

end

mutual

/-- addEqualNodes adds the subnodes of every child of g2 whose content
    text equals the key, optionally recursing into subnodes (source:
    part_000).  Returns the updated receiver; none records the run-time
    error of dereferencing a nil child. -/
def Graph.addEqualNodes : Graph → Option Graph → String → Bool → Option Graph
  | g, none, _, _ => some g
  | g, some (.G _ hout), key, recurse => addEqualList g hout key recurse

/-- The loop of addEqualNodes over a children list. -/
def addEqualList (g : Graph) (l : List (Option Graph)) (key : String) (recurse : Bool) :
    Option Graph :=
  match l with
  | [] => some g
  | none :: _ => none
  | some n :: rest =>
      let g1 := if key = goString n.This then g.AddNodes (some n) else g
      match (if recurse then g1.addEqualNodes (some n) key true else some g1) with
      | none => none
      | some g2 => addEqualList g2 rest key recurse

end

/-- The selector scan for a numbered selector: among the children of the
    previous-level node, find the occurrence numbered i (counting down
    from N+1) whose text equals the previous element name; the outer
    Option records the run-time error on a nil child reached before the
    match. -/
def selectNth : List (Option Graph) → String → Int → Option (Option Graph)
  | [], _, _ => some none
  | none :: _, _, _ => none
  | some nn :: rest, key, i =>
      if nn.ThisString = key then
        if i - 1 = 0 then some (some nn) else selectNth rest key (i - 1)
      else selectNth rest key i

/-- The main loop of get (source: part_000), carrying the current node,
    the previous-level node, the previous element name, and the iknow
    flag that the final wrapping step consults.  The outer Option records
    a run-time error; the inner Option is the nil result sentinel. -/
def getLoop (node : Graph) (nodePrev : Option Graph) (elemPrev : String) (iknow : Bool) :
    List (Option Graph) → Option (Option Graph)
  | [] =>
      if !node.This.isNilV ∧ !iknow then
        some (some (.G .vnil [some node]))
      else some (some node)
  | e :: rest =>
      match e with
      | none => none
      | some elem =>
          let p := elem.ThisString
          if p = TypeIndex then
            match elem.Out with
            | [] => some none
            | e0 :: _ =>
                match e0 with
                | none => none
                | some c =>
                    match atoi c.ThisString with
                    | none => some none
                    | some i =>
                        match node.GetAt i with
                        | none => some none
                        | some nd => getLoop nd (some node) nd.ThisString false rest
          else if p = TypeSelector then
            match nodePrev with
            | none => some none
            | some np =>
                if np.Out.length = 0 ∨ elemPrev.length = 0 then some none
                else if elem.Out.length = 0 then
                  match (Graph.New []).addEqualNodes (some np) elemPrev false with
                  | none => none
                  | some r =>
                      if r.Out.length = 0 then some none
                      else getLoop r nodePrev elemPrev false rest
                else
                  match elem.Out with
                  | [] => some none
                  | e0 :: _ =>
                      match e0 with
                      | none => none
                      | some c =>
                          match atoi c.ThisString with
                          | none => some none
                          | some i =>
                              if i < 0 then some none
                              else
                                match selectNth np.Out elemPrev (i + 1) with
                                | none => none
                                | some none => some none
                                | some (some nn) =>
                                    getLoop ((Graph.New []).AddNodes (some nn))
                                      nodePrev elemPrev false rest
          else if p = "_len" then
            some (some (.G .vnil [some (.G (.vgoint node.Out.length) [])]))
          else
            match node.Node p with
            | none => none
            | some none => some none
            | some (some nn) => getLoop nn (some node) p true rest

/-- get recurses a Graph following a given parsed path (source:
    part_000).  A nil path argument resolves to the nil sentinel; the
    receiver is assumed non-nil as at every call site in src. -/
def Graph.get (g : Graph) (path : Option Graph) : Option (Option Graph) :=
  match path with
  | none => some none
  | some p => getLoop g none "" true p.Out

/-- Modelled from the spec: the Int64 scalar-conversion method of Graph
    (the conversion library is external to the core and missing from
    src).  On a parsed index path element, whose numeric payload is its
    first child, it yields that number; on a plain node it converts the
    content text; an unconvertible node yields zero. -/
def Graph.Int64 (g : Graph) : Int :=
  match g.Out with
  | some c :: _ => (atoi (goString c.This)).getD 0
  | _ => (atoi (goString g.This)).getD 0

/-- The index branch shared by both loops of set: grow the children list
    to length i+1 when the index is at least the current length, copying
    the existing children and leaving every new position a nil pointer,
    then store a fresh node built by New from the single value at
    position i and return it.  A negative index is a run-time error
    (out-of-range slice index). -/
def setIndexStep (node : Graph) (i : Int) (val : Value) : Option (Graph × Graph) :=
  if i < 0 then none
  else
    let nd := Graph.New [val]
    let o :=
      if node.Out.length ≤ i.toNat then
        node.Out ++ List.replicate (i.toNat + 1 - node.Out.length) none
      else node.Out
    some (.G node.This (o.set i.toNat (some nd)), nd)

/-- The construction loop of set (source: part_000), entered when a path
    element is not found: every remaining element is created by Add
    (an index element is handled by the index branch and returns at
    once), and at the end the final node is overwritten with a single
    child holding the value.  A transparent graph content is spliced by
    Add, after which the construction continues on the argument node
    whose later mutations are not visible through the receiver. -/
def buildFn (g : Graph) : List (Option Graph) → Value → Option (Graph × Graph)
  | [], val => some ((Graph.G g.This []).Add val)
  | none :: _, _ => none
  | some elem :: rest, val =>
      if elem.ThisString = TypeIndex then setIndexStep g elem.Int64 val
      else
        match elem.This with
        | .vgraph (some t) =>
            if t.IsNil then
              match buildFn t rest val with
              | none => none
              | some (_, ret) => some (.G g.This (g.Out ++ t.Out), ret)
            else
              match buildFn t rest val with
              | none => none
              | some (t2, ret) => some (.G g.This (g.Out ++ [some t2]), ret)
        | v =>
            match buildFn (.G v []) rest val with
            | none => none
            | some (c2, ret) => some (.G g.This (g.Out ++ [some c2]), ret)

/-- Scan of a children list for the first node whose text equals the
    given string, returning also its position so that the functional
    rebuild of set can write back through it; none = run-time error on a
    nil child, some none = not found. -/
def findNode : List (Option Graph) → String → Option (Option (Nat × Graph))
  | [], _ => some none
  | none :: _, _ => none
  | some n :: rest, s =>
      if s = goString n.This then some (some (0, n))
      else
        match findNode rest s with
        | none => none
        | some none => some none
        | some (some (j, c)) => some (some (j + 1, c))

/-- The resolution loop of set (source: part_000): descend through the
    first child matching each element; on an index element grow and
    place immediately; on a missing field switch to the construction
    loop; when the path is exhausted discard the children of the node
    reached and add a single child holding the value. -/
def setFn (g : Graph) : List (Option Graph) → Value → Option (Graph × Graph)
  | [], val => some ((Graph.G g.This []).Add val)
  | none :: _, _ => none
  | some elem :: rest, val =>
      if elem.ThisString = TypeIndex then setIndexStep g elem.Int64 val
      else
        match findNode g.Out elem.ThisString with
        | none => none
        | some none => buildFn g (some elem :: rest) val
        | some (some (j, c)) =>
            match setFn c rest val with
            | none => none
            | some (c2, ret) => some (.G g.This (g.Out.set j (some c2)), ret)

/-- set resolves a parsed path and writes the value at its end (source:
    part_000), returning the updated receiver together with the node the
    source returns.  A nil path argument is a run-time error (the source
    reads its children without a check). -/
def Graph.set (g : Graph) (path : Option Graph) (val : Value) : Option (Graph × Graph) :=
  match path with
  | none => none
  | some p => setFn g p.Out val

/-- calc performs arithmetic on two dynamic values (source: eval.go).
    The four typed branches mirror the int64 and float64 type assertions
    of the source in order; every unmatched combination falls through to
    the final block, which concatenates the text forms for the plus
    operator and yields nil otherwise.  none records the run-time error
    of integer division or remainder by zero. -/
def calcFn (v1 v2 : Value) (op : Char) : Option Value :=
  match v1, v2, op with
  | .vint64 a, .vint64 b, '+' => some (.vint64 (goAdd a b))
  | .vint64 a, .vint64 b, '-' => some (.vint64 (goSub a b))
  | .vint64 a, .vint64 b, '*' => some (.vint64 (goMul a b))
  | .vint64 a, .vint64 b, '/' => if b = 0 then none else some (.vint64 (goDiv a b))
  | .vint64 a, .vint64 b, '%' => if b = 0 then none else some (.vint64 (goMod a b))
  | .vfloat a, .vfloat b, '+' => some (.vfloat (a + b))
  | .vfloat a, .vfloat b, '-' => some (.vfloat (a - b))
  | .vfloat a, .vfloat b, '*' => some (.vfloat (a * b))
  | .vfloat a, .vfloat b, '/' => some (.vfloat (a / b))
  | .vfloat a, .vfloat b, '%' =>
      if goIntOfFloat b = 0 then none
      else some (.vgoint (goMod (goIntOfFloat a) (goIntOfFloat b)))
  | .vint64 a, .vfloat b, '+' => some (.vfloat ((a : Rat) + b))
  | .vint64 a, .vfloat b, '-' => some (.vfloat ((a : Rat) - b))
  | .vint64 a, .vfloat b, '*' => some (.vfloat ((a : Rat) * b))
  | .vint64 a, .vfloat b, '/' => some (.vfloat ((a : Rat) / b))
  | .vint64 a, .vfloat b, '%' =>
      if goIntOfFloat b = 0 then none else some (.vint64 (goMod a (goIntOfFloat b)))
  | .vfloat a, .vint64 b, '+' => some (.vfloat (a + (b : Rat)))
  | .vfloat a, .vint64 b, '-' => some (.vfloat (a - (b : Rat)))
  | .vfloat a, .vint64 b, '*' => some (.vfloat (a * (b : Rat)))
  | .vfloat a, .vint64 b, '/' => some (.vfloat (a / (b : Rat)))
  | .vfloat a, .vint64 b, '%' =>
      if b = 0 then none else some (.vint64 (goMod (goIntOfFloat a) b))
  | a, b, o => if o ≠ '+' then some .vnil else some (.vstr (goString a ++ goString b))

/-- compare performs comparison on two dynamic values (source: eval.go):
    the first operand determines the family, integers first, then
    floats, then text, where only equality and inequality are supported
    and everything else is false. -/
def compareFn (v1 v2 : Value) (op : Char) : Bool :=
  match int64c v1 with
  | some i1 =>
      match int64f v2 with
      | none => false
      | some i2 =>
          if op = '=' then i1 = i2
          else if op = '+' then i1 ≥ i2
          else if op = '-' then i1 ≤ i2
          else if op = '>' then i1 > i2
          else if op = '<' then i1 < i2
          else if op = '!' then i1 ≠ i2
          else false
  | none =>
      match float64c v1 with
      | some f1 =>
          match float64f v2 with
          | none => false
          | some f2 =>
              if op = '=' then f1 = f2
              else if op = '+' then f1 ≥ f2
              else if op = '-' then f1 ≤ f2
              else if op = '>' then f1 > f2
              else if op = '<' then f1 < f2
              else if op = '!' then f1 ≠ f2
              else false
      | none =>
          if op = '=' then goString v1 = goString v2
          else if op = '!' then goString v1 ≠ goString v2
          else false

/-- logic coerces both operands to booleans and combines them (source:
    eval.go); if either coercion fails the result is false. -/
def logicFn (v1 v2 : Value) (op : Char) : Bool :=
  match boolf v1, boolf v2 with
  | some b1, some b2 =>
      if op = '&' then b1 && b2 else if op = '|' then b1 || b2 else false
  | _, _ => false

/-- assign modifies the context graph (source: eval.go).  Plain
    assignment writes through set.  For a compound operator the source
    first reads the target: when the read comes back nil it evaluates
    calc on the This field of that nil pointer, a run-time error (none);
    when the target is present it applies the per-operator policy table,
    ignoring the current value.  The source comment says the nil branch
    was meant to just set the value, so the two branches are swapped. -/
def Graph.assign (g : Graph) (p : Option Graph) (v : Value) (op : Char) :
    Option (Graph × Value) :=
  if op = '=' then
    match g.set p v with
    | none => none
    | some (g2, ret) => some (g2, .vgraph (some ret))
  else
    match g.get p with
    | none => none
    | some none => none
    | some (some _) =>
        if op = '+' then
          match g.set p v with
          | none => none
          | some (g2, ret) => some (g2, .vgraph (some ret))
        else if op = '-' then
          match calcFn (.vgoint 0) v '-' with
          | none => none
          | some w =>
              match g.set p w with
              | none => none
              | some (g2, ret) => some (g2, .vgraph (some ret))
        else if op = '*' then
          match g.set p (.vgoint 0) with
          | none => none
          | some (g2, ret) => some (g2, .vgraph (some ret))
        else if op = '/' then
          match g.set p (.vstr "infinity") with
          | none => none
          | some (g2, ret) => some (g2, .vgraph (some ret))
        else if op = '%' then
          match g.set p (.vstr "undefined") with
          | none => none
          | some (g2, ret) => some (g2, .vgraph (some ret))
        else some (g, .vnil)

/-- Modelled from the spec: the transparent-root constructor used by the
    evaluator (its definition is missing from src): a fresh node with
    absent content and no children. -/
def NilGraph : Graph := .G .vnil []

/-- Modelled from the spec: the one-scalar constructor used by the
    evaluator (missing from src): a fresh node holding the given content
    directly. -/
def NewGraph (v : Value) : Graph := .G v []

/-- Modelled from the spec: the Number method parses the scalar text of
    the node, already recognized by isNumber, to its native numeric
    form. -/
def Graph.Number (g : Graph) : Value := parseNumber g.Str

/-- Modelled from the spec: the Scalar method returns the content in its
    normalized native form (numeric text to numbers, the boolean literal
    texts to booleans, anything else unchanged). -/
def Graph.Scalar (g : Graph) : Value :=
  match g.This with
  | .vstr s =>
      if isNumber s then parseNumber s
      else if s = "true" then .vbool true
      else if s = "false" then .vbool false
      else .vstr s
  | v => v

/-- The eval.go spelling of the index tag; the constant is missing from
    src and modelled as the same reserved string as TypeIndex. -/
def TYPE_INDEX : String := TypeIndex

/-- The eval.go spelling of the selector tag, modelled like TYPE_INDEX. -/
def TYPE_SELECTOR : String := TypeSelector

/-- First character of a non-empty scalar text, as the byte index zero
    in the source. -/
def headChar (s : String) : Char := s.data.headD ' '

mutual

/-- Eval takes a parsed expression and evaluates it in the context of
    the current graph (source: eval.go): path and expression wrappers
    recurse, a node with children is returned as is, and a leaf is
    normalized by Scalar. -/
def Graph.Eval (g : Graph) (e : Option Graph) : Option (Graph × Value) :=
  match e with
  | none => none
  | some ee =>
      if ee.Str = TYPE_PATH then g.EvalPath (some ee)
      else if ee.Str = TYPE_EXPRESSION then g.EvalExpression (some ee)
      else if ee.Out.length ≠ 0 then some (g, .vgraph (some ee))
      else some (g, ee.Scalar)
  termination_by (sizeOf e, 3)

/-- EvalBool evaluates an expression and coerces the result to boolean,
    defaulting to false (source: eval.go). -/
def Graph.EvalBool (g : Graph) (e : Option Graph) : Option (Graph × Bool) :=
  match g.Eval e with
  | none => none
  | some (g1, v) => some (g1, (boolf v).getD false)
  termination_by (sizeOf e, 4)

/-- EvalPath traverses the context following a parsed path (source:
    eval.go).  The context is normalized so the root is transparent;
    a nil path argument is a run-time error.  Aliasing note: the source
    traverses pointers into the context while index subexpressions may
    mutate it; the model traverses the snapshot taken at entry. -/
def Graph.EvalPath (g : Graph) (p : Option Graph) : Option (Graph × Value) :=
  match p with
  | none => none
  | some (.G _ pout) =>
      if pout.length = 0 then some (g, .vnil)
      else
        let node : Graph := if !g.IsNil then .G .vnil [some g] else g
        evalPathLoop g (some node) false pout
  termination_by (sizeOf p, 1)

/-- The element loop of EvalPath, carrying the current node (a possibly
    nil pointer) and the iknow flag consulted by the final unwrapping
    step. -/
def evalPathLoop (g : Graph) (node : Option Graph) (iknow : Bool) :
    List (Option Graph) → Option (Graph × Value)
  | [] =>
      match node with
      | none => some (g, .vgraph none)
      | some nd =>
          if iknow then
            match nd.Out with
            | [some c] =>
                if c.Out.length = 0 then some (g, c.This)
                else some (g, .vgraph (some (.G .vnil nd.Out)))
            | _ => some (g, .vgraph (some (.G .vnil nd.Out)))
          else some (g, .vgraph (some nd))
  | e :: rest =>
      match e with
      | none => none
      | some n =>
          let s := n.Str
          if s = TYPE_INDEX then
            match n with
            | .G _ [] => some (g, .vstr "empty []")
            | .G _ (ne0 :: _) =>
                match g.EvalExpression ne0 with
                | none => none
                | some (g1, itf) =>
                    match int64c itf with
                    | none => some (g1, .vstr "[] does not evaluate to a valid integer")
                    | some ix =>
                        if ix < 0 ∨ ¬ix < Graph.Len node then
                          some (g1, .vstr "[] does not evaluate to a valid integer")
                        else
                          match node with
                          | none => some (g1, .vstr "[] does not evaluate to a valid integer")
                          | some nd => evalPathLoop g1 (nd.GetAt ix) false rest
          else if s = TYPE_SELECTOR then
            some (g, .vstr "\x7b\x7d not supported yet")
          else if s = "_len" then some (g, .vgoint (Graph.Len node))
          else if s = TYPE_GROUP then
            match n with
            | .G _ [] => none
            | .G _ (ne0 :: _) =>
                match g.EvalExpression ne0 with
                | none => none
                | some (g1, itf) =>
                    let str := goString itf
                    if str.length = 0 then some (g1, .vnil)
                    else evalPathField g1 node str rest
          else evalPathField g node s rest
  termination_by elems => (sizeOf elems, 1)

/-- The shared field-name step of the EvalPath loop (the default switch
    case, also reached by the group case through fallthrough): look the
    name up among the children of the current node; a missing child
    dispatches to the external Function mechanism, which is absent from
    src and modelled from the spec as resolving to nil. -/
def evalPathField (g : Graph) (node : Option Graph) (s : String) :
    List (Option Graph) → Option (Graph × Value)
  | rest =>
      match node with
      | none => none
      | some nd =>
          match nd.Node s with
          | none => none
          | some none => some (g, .vnil)
          | some (some nn) => evalPathLoop g (some nn) true rest
  termination_by rest => (sizeOf rest, 2)

/-- EvalExpression evaluates a parsed expression tree against the
    context (source: eval.go), dispatching in order on: absent content,
    empty text, numeric literal, the unary and structural tags, an
    operator first character, a quote first character, a letter first
    character, and the unresolved fallback. -/
def Graph.EvalExpression (g : Graph) (p : Option Graph) : Option (Graph × Value) :=
  match p with
  | none => none
  | some pp =>
      if pp.This.isNilV then some (g, .vnil)
      else
        let s := pp.Str
        if s.length = 0 then some (g, .vstr "")
        else if isNumber s then some (g, pp.Number)
        else if s = "!" then
          match pp with
          | .G _ [] => none
          | .G _ (e0 :: _) =>
              match g.EvalBool e0 with
              | none => none
              | some (g1, b) => some (g1, .vbool (!b))
        else if s = TYPE_EXPRESSION then
          match pp with
          | .G _ [] => none
          | .G _ (e0 :: _) => g.EvalExpression e0
        else if s = TYPE_PATH then g.EvalPath (some pp)
        else if s = TYPE_GROUP then
          match pp with
          | .G _ pout =>
              match evalGroup g (NewGraph (.vstr TYPE_GROUP)) pout with
              | none => none
              | some (g1, r) => some (g1, .vgraph (some r))
        else if IsOperatorChar (headChar s) then g.evalBinary pp
        else if headChar s = '"' ∨ headChar s = '\'' then some (g, .vstr s)
        else if IsLetter (headChar s) then
          if s = "false" then some (g, .vbool false)
          else if s = "true" then some (g, .vbool true)
          else some (g, .vstr s)
        else some (g, .vgraph (some pp))
  termination_by (sizeOf p, 2)

/-- The group case of EvalExpression: evaluate every child expression in
    order, threading the context, and collect the results into the
    accumulator node by Add. -/
def evalGroup (g : Graph) (r : Graph) : List (Option Graph) → Option (Graph × Graph)
  | [] => some (g, r)
  | e :: rest =>
      match g.EvalExpression e with
      | none => none
      | some (g1, v) => evalGroup g1 (r.Add v).1 rest
  termination_by es => (sizeOf es, 0)

/-- evalBinary dispatches a binary operator node (source: eval.go).  The
    right operand is evaluated first in every case; the left operand is
    evaluated for arithmetic, comparison and logic, and passed
    unevaluated to assign for the assignment family; fewer than two
    children is a run-time error (out-of-range index). -/
def Graph.evalBinary (g : Graph) (pp : Graph) : Option (Graph × Value) :=
  match pp with
  | .G _ [] => none
  | .G _ [_] => none
  | .G _ (e0 :: e1 :: _) =>
      match g.EvalExpression e1 with
      | none => none
      | some (g1, i2) =>
          let s := pp.Str
          if s = "+" ∨ s = "-" ∨ s = "*" ∨ s = "/" ∨ s = "%" then
            match g1.EvalExpression e0 with
            | none => none
            | some (g2, v1) =>
                match calcFn v1 i2 (headChar s) with
                | none => none
                | some w => some (g2, w)
          else if s = "=" then g1.assign e0 i2 '='
          else if s = "+=" then g1.assign e0 i2 '+'
          else if s = "-=" then g1.assign e0 i2 '-'
          else if s = "*=" then g1.assign e0 i2 '*'
          else if s = "/=" then g1.assign e0 i2 '/'
          else if s = "%=" then g1.assign e0 i2 '%'
          else if s = "==" ∨ s = ">=" ∨ s = "<=" ∨ s = "!=" ∨ s = ">" ∨ s = "<" then
            match g1.EvalExpression e0 with
            | none => none
            | some (g2, v1) =>
                let oc : Char :=
                  if s = "==" then '='
                  else if s = ">=" then '+'
                  else if s = "<=" then '-'
                  else if s = "!=" then '!'
                  else if s = ">" then '>'
                  else '<'
                some (g2, .vbool (compareFn v1 i2 oc))
          else if s = "&&" ∨ s = "||" then
            match g1.EvalExpression e0 with
            | none => none
            | some (g2, v1) =>
                some (g2, .vbool (logicFn v1 i2 (if s = "&&" then '&' else '|')))
          else some (g1, .vnil)
  termination_by (sizeOf pp, 0)

end

/-- Test for a graph-pointer value (excluded from scalar write claims,
    since Add splices or aliases graph arguments instead of wrapping
    them in a fresh leaf). -/
def Value.isGraphV : Value → Bool
  | .vgraph _ => true
  | _ => false

mutual

/-- A graph is clean when no reachable child pointer is nil.  This is
    the shape of every graph built by the constructors and by writes
    through plain field paths; nil children only arise from the index
    branch of set. -/
def cleanB : Graph → Bool
  | .G _ out => cleanL out

/-- Cleanliness of a children list. -/
def cleanL : List (Option Graph) → Bool
  | [] => true
  | none :: _ => false
  | some g :: rest => cleanB g && cleanL rest

end

/-- All pointers of one children list are non-nil (one level only). -/
def allSomeL (l : List (Option Graph)) : Bool := l.all Option.isSome

mutual

/-- Specification-side structural depth of a tree-shaped graph: zero for
    a node with no children, one more than the maximum over the children
    otherwise; nil children contribute nothing. -/
def trueDepth : Graph → Nat
  | .G _ [] => 0
  | .G _ (c :: cs) => 1 + trueDepthL (c :: cs)

/-- Maximum of the specification-side depths over a children list. -/
def trueDepthL : List (Option Graph) → Nat
  | [] => 0
  | none :: rest => trueDepthL rest
  | some g :: rest => max (trueDepth g) (trueDepthL rest)

end

/-- A linear chain of the given depth: chain 0 is a leaf, chain (n+1)
    has the single child chain n. -/
def chain : Nat → Graph
  | 0 => .G (.vstr "n") []
  | n + 1 => .G (.vstr "n") [some (chain n)]

/-- A plain field-name path element: a non-nil node whose content is a
    string other than the reserved index, selector and length tags. -/
def plainElem : Option Graph → Bool
  | some (.G (.vstr s) _) =>
      !(s = TypeIndex ∨ s = TypeSelector ∨ s = "_len")
  | _ => false

/-- A path all of whose elements are plain field names. -/
def plainPath (l : List (Option Graph)) : Bool := l.all plainElem

/-- Specification-side float arithmetic for the non-remainder operators,
    in the idealized exact-rational reading of float64. -/
def goFloatOp (op : Char) (x y : Rat) : Rat :=
  if op = '+' then x + y
  else if op = '-' then x - y
  else if op = '*' then x * y
  else x / y

/-- Specification-side arithmetic ladder, written from the words of the
    claim: both integers use integer arithmetic; both floats use float
    arithmetic except the remainder, which takes the modulus of the two
    floats' integer parts; one integer and one float promote the integer
    to float and use float arithmetic, except the remainder, which
    truncates the float to an integer and takes 64-bit integer modulus;
    when neither operand is numeric, plus concatenates the text forms
    and every other operator yields the absent result.  Division and
    remainder by zero keep the Go run-time-error reading (none). -/
def calcSpec (v1 v2 : Value) (op : Char) : Option Value :=
  match v1, v2 with
  | .vint64 a, .vint64 b =>
      if op = '/' then (if b = 0 then none else some (.vint64 (goDiv a b)))
      else if op = '%' then (if b = 0 then none else some (.vint64 (goMod a b)))
      else if op = '+' then some (.vint64 (goAdd a b))
      else if op = '-' then some (.vint64 (goSub a b))
      else some (.vint64 (goMul a b))
  | .vfloat x, .vfloat y =>
      if op = '%' then
        (if goIntOfFloat y = 0 then none
         else some (.vgoint (goMod (goIntOfFloat x) (goIntOfFloat y))))
      else some (.vfloat (goFloatOp op x y))
  | .vint64 a, .vfloat y =>
      if op = '%' then
        (if goIntOfFloat y = 0 then none
         else some (.vint64 (goMod a (goIntOfFloat y))))
      else some (.vfloat (goFloatOp op (a : Rat) y))
  | .vfloat x, .vint64 b =>
      if op = '%' then
        (if b = 0 then none else some (.vint64 (goMod (goIntOfFloat x) b)))
      else some (.vfloat (goFloatOp op x (b : Rat)))
  | a, b => if op = '+' then some (.vstr (goString a ++ goString b)) else some .vnil

/-- Specification-side collection for the empty selector: the
    concatenated children of every node of the list whose text equals
    the key, in document order. -/
def matchedChildren (l : List (Option Graph)) (key : String) : List (Option Graph) :=
  (l.map (fun c =>
    match c with
    | some n => if goString n.This = key then n.Out else []
    | none => [])).flatten

/-- Specification-side list of the nodes of the list whose text equals
    the key, in document order (the candidates of a numbered selector). -/
def matchesOf (l : List (Option Graph)) (key : String) : List Graph :=
  l.filterMap (fun c =>
    match c with
    | some n => if goString n.This = key then some n else none
    | none => none)

/-
  Theorems.  Each claim of the specification is settled below; helper
  lemmas are shared and carry no claim names.
-/

/-- C1.  The claim states that a compound assignment on an absent target
    degrades to the per-operator policy table and on a present target
    performs true arithmetic.  The source does the opposite: on an
    absent target it dereferences the nil read result (a run-time error,
    modelled none), and on a present target it applies the policy table,
    ignoring the current value; moreover the policy entry for the minus
    operator passes a Go int zero to calc, whose int64 assertion fails,
    so the minus operator stores nil.  The comment above the branch in
    the source states the intended behavior, which is the claim, so the
    branches are swapped in the code.  The three conjuncts evaluate the
    code: plus on the absent target b is a run-time error; plus on a
    present target b holding 2 stores 3 (the policy table, not 5); minus
    on the same target stores nil (not minus 3). -/
theorem C1_assign_swapped_on_absent :
    ((Graph.G (.vstr "r") []).assign
        (some (.G (.vstr TYPE_PATH) [some (.G (.vstr "b") [])])) (.vint64 3) '+' = none) ∧
    ((Graph.G (.vstr "r") [some (.G (.vstr "b") [some (.G (.vint64 2) [])])]).assign
        (some (.G (.vstr TYPE_PATH) [some (.G (.vstr "b") [])])) (.vint64 3) '+' =
      some (.G (.vstr "r") [some (.G (.vstr "b") [some (.G (.vint64 3) [])])],
        .vgraph (some (.G (.vint64 3) [])))) ∧
    ((Graph.G (.vstr "r") [some (.G (.vstr "b") [some (.G (.vint64 2) [])])]).assign
        (some (.G (.vstr TYPE_PATH) [some (.G (.vstr "b") [])])) (.vint64 3) '-' =
      some (.G (.vstr "r") [some (.G (.vstr "b") [some (.G .vnil [])])],
        .vgraph (some (.G .vnil [])))) :=
  ⟨rfl, rfl, rfl⟩

/-- C4.  The claim states that no core operation ever panics.  The code
    has concrete run-time errors, each modelled none: Equals compares
    interface values holding byte slices, an uncomparable Go type;
    compound assignment on an absent target dereferences the nil read
    (the C1 slip); a negative index in set indexes the children slice
    out of range; the field scan of set dereferences a nil child left by
    an earlier index growth; Depth recurses into a nil child. -/
theorem C4_runtime_errors_exist :
    ((Graph.G (.vbytes [1]) []).Equals (.G (.vbytes [1]) []) = none) ∧
    ((Graph.G (.vstr "g0") []).assign
        (some (.G (.vstr TYPE_PATH) [some (.G (.vstr "a") [])])) (.vstr "w") '%' = none) ∧
    (setFn (.G (.vstr "r") [])
        [some (.G (.vstr TypeIndex) [some (.G (.vstr "-1") [])])] (.vstr "v") = none) ∧
    (setFn (.G (.vstr "r") [none]) [some (.G (.vstr "a") [])] (.vstr "v") = none) ∧
    ((Graph.G .vnil [none]).Depth = none) :=
  ⟨rfl, rfl, rfl, rfl, rfl⟩

/-- C2.  The promotion ladder of calc agrees with the specification-side
    ladder written from the claim, for every pair of operand values and
    every arithmetic operator; and the two concrete examples of the
    claim evaluate as stated through the expression engine (with float64
    idealized as exact rationals, both examples exactly representable). -/
theorem C2_calc_promotion_ladder :
    (∀ (v1 v2 : Value) (op : Char),
      op = '+' ∨ op = '-' ∨ op = '*' ∨ op = '/' ∨ op = '%' →
      calcFn v1 v2 op = calcSpec v1 v2 op) ∧
    (NilGraph.EvalExpression (some (.G (.vstr "+")
        [some (.G (.vstr "3") []), some (.G (.vstr "2.5") [])])) =
      some (NilGraph, .vfloat (11 / 2))) ∧
    (NilGraph.EvalExpression (some (.G (.vstr "%")
        [some (.G (.vstr "7") []), some (.G (.vstr "2") [])])) =
      some (NilGraph, .vint64 1)) := by
  refine ⟨fun v1 v2 op hop => ?_, ?_, ?_⟩
  · rcases hop with rfl | rfl | rfl | rfl | rfl <;>
      cases v1 <;> cases v2 <;> simp +decide [calcFn, calcSpec, goFloatOp]
  · simp +decide [Graph.EvalExpression, Graph.evalBinary, NilGraph, Graph.Str, goString,
      Graph.This, Graph.Number, headChar, calcFn, parseNumber]
    have h3 : digitsToNat ['3'] = 3 := rfl
    have h2 : digitsToNat ['2'] = 2 := rfl
    have h5 : digitsToNat ['5'] = 5 := rfl
    rw [h3, h2, h5]
    norm_num [wrap64]
  · simp +decide [Graph.EvalExpression, Graph.evalBinary, NilGraph, Graph.Str, goString,
      Graph.This, Graph.Number, headChar, calcFn, parseNumber]

/-- C2 witness: the ladder applied at the two operand pairs of the
    claim, with every hypothesis discharged at the concrete operators. -/
theorem C2_calc_promotion_ladder_witness :
    calcFn (.vint64 7) (.vint64 2) '%' = some (.vint64 1) ∧
    calcFn (.vint64 3) (.vfloat (5 / 2)) '+' = some (.vfloat (11 / 2)) := by
  constructor
  · exact (C2_calc_promotion_ladder.1 (.vint64 7) (.vint64 2) '%' (by decide)).trans
      (by simp +decide [calcSpec, goMod])
  · refine (C2_calc_promotion_ladder.1 (.vint64 3) (.vfloat (5 / 2)) '+' (by decide)).trans ?_
    simp +decide [calcSpec, goFloatOp]
    norm_num

/-- Eta rule for the graph constructor. -/
theorem Graph.eta : ∀ g : Graph, Graph.G g.This g.Out = g
  | .G _ _ => rfl

/-- Folding Add over a list of non-nil, non-transparent graph pointers
    appends exactly those pointers. -/
theorem foldl_add_nonTransparent (l : List (Option Graph)) :
    ∀ g : Graph, (∀ c ∈ l, ∃ cg, c = some cg ∧ cg.This.isNilV = false) →
    l.foldl (fun acc c => (acc.Add (.vgraph c)).1) g = .G g.This (g.Out ++ l) := by
  induction l with
  | nil => intro g _; simp [Graph.eta]
  | cons c rest ih =>
      intro g hc
      have hrest : ∀ d ∈ rest, ∃ dg, d = some dg ∧ dg.This.isNilV = false :=
        fun d hd => hc d (List.mem_cons_of_mem c hd)
      obtain ⟨cg, rfl, hcg⟩ := hc c (List.mem_cons_self c rest)
      simp only [List.foldl_cons]
      rw [show ((g.Add (.vgraph (some cg))).1) = Graph.G g.This (g.Out ++ [some cg]) by
        simp [Graph.Add, Graph.IsNil, hcg]]
      rw [ih _ hrest]
      simp [Graph.This, Graph.Out]

/-- C9 counterexample.  The claim states that composing any transparent
    node t into n gives the same children as composing each child of t
    individually.  It fails when a child of t is itself transparent
    (individual composition splices the grandchildren, direct
    composition keeps the child), and when a child pointer is nil
    (individual composition wraps the nil pointer in a fresh node).
    Both failures are exhibited at concrete inputs. -/
theorem C9_add_splice_cex :
    ((Graph.G (.vstr "g") []).Add (.vgraph (some (.G .vnil
        [some (.G .vnil [some (.G (.vstr "a") []), some (.G (.vstr "b") [])])])))).1.Out =
      [some (.G .vnil [some (.G (.vstr "a") []), some (.G (.vstr "b") [])])] ∧
    ([some (.G .vnil [some (.G (.vstr "a") []), some (.G (.vstr "b") [])])] :
        List (Option Graph)).foldl (fun acc c => (acc.Add (.vgraph c)).1)
        (Graph.G (.vstr "g") []) =
      .G (.vstr "g") [some (.G (.vstr "a") []), some (.G (.vstr "b") [])] ∧
    ([some (.G .vnil [some (.G (.vstr "a") []), some (.G (.vstr "b") [])])] :
        List (Option Graph)) ≠
      [some (.G (.vstr "a") []), some (.G (.vstr "b") [])] ∧
    ((Graph.G (.vstr "g") []).Add (.vgraph (some (.G .vnil [none])))).1.Out = [none] ∧
    ([none] : List (Option Graph)).foldl (fun acc c => (acc.Add (.vgraph c)).1)
        (Graph.G (.vstr "g") []) = .G (.vstr "g") [some (.G (.vgraph none) [])] ∧
    ([none] : List (Option Graph)) ≠ [some (.G (.vgraph none) [])] := by
  refine ⟨rfl, rfl, by simp, rfl, rfl, by simp⟩

/-- C9 amended: for every node g and transparent node t all of whose
    child pointers are non-nil and non-transparent, composing t into g
    splices the children of t directly (t never survives as a single
    child), and this equals composing each child of t individually, in
    order. -/
theorem C9_add_splice_amended (g t : Graph) (ht : t.This = .vnil)
    (hc : ∀ c ∈ t.Out, ∃ cg, c = some cg ∧ cg.This.isNilV = false) :
    (g.Add (.vgraph (some t))).1.Out = g.Out ++ t.Out ∧
    (g.Add (.vgraph (some t))).1 =
      t.Out.foldl (fun acc c => (acc.Add (.vgraph c)).1) g := by
  have hsp : (g.Add (.vgraph (some t))).1 = .G g.This (g.Out ++ t.Out) := by
    simp [Graph.Add, Graph.IsNil, ht, Value.isNilV]
  refine ⟨by rw [hsp]; rfl, ?_⟩
  rw [hsp, foldl_add_nonTransparent t.Out g hc]

/-- C9 witness: the amended law applied at a concrete transparent node
    with two plain children. -/
theorem C9_add_splice_amended_witness :
    ((Graph.G (.vstr "g") []).Add (.vgraph (some (.G .vnil
        [some (.G (.vstr "a") []), some (.G (.vstr "b") [])])))).1.Out =
      [some (.G (.vstr "a") []), some (.G (.vstr "b") [])] := by
  have h := C9_add_splice_amended (Graph.G (.vstr "g") [])
    (.G .vnil [some (.G (.vstr "a") []), some (.G (.vstr "b") [])]) rfl
    (by intro c hc
        simp only [Graph.Out, List.mem_cons, List.not_mem_nil, or_false] at hc
        rcases hc with rfl | rfl
        · exact ⟨_, rfl, rfl⟩
        · exact ⟨_, rfl, rfl⟩)
  simpa [Graph.Out] using h.1

/-- The chain has the expected specification-side depth. -/
theorem chain_trueDepth : ∀ k, trueDepth (chain k) = k := by
  intro k
  induction k with
  | zero => rfl
  | succ k ih => simp [chain, trueDepth, trueDepthL, ih]; omega

/-- Depth computes the exact depth of a chain up to 101 levels. -/
theorem chain_Depth_le : ∀ k, k ≤ 101 → (chain k).Depth = some (k : Int) := by
  intro k
  induction k with
  | zero => intro _; rfl
  | succ k ih =>
      intro hk
      have hd := ih (by omega)
      simp only [chain, Graph.Depth, depthMax, hd, List.length_cons, List.length_nil]
      have h1 : ¬(0 + 1 = 0) := by omega
      rw [if_neg h1]
      have h2 : ((0 : Int) ⊔ (k : Int)) = (k : Int) := max_eq_right (by positivity)
      rw [h2]
      have h3 : ¬((k : Int) > 100) := by omega
      rw [if_neg h3]
      norm_cast

/-- A member of a children list has depth at most the list maximum. -/
theorem trueDepthL_mem : ∀ (l : List (Option Graph)) (c : Graph),
    some c ∈ l → trueDepth c ≤ trueDepthL l := by
  intro l
  induction l with
  | nil => intro c h; cases h
  | cons d rest ih =>
      intro c h
      rcases List.mem_cons.mp h with h1 | h2
      · subst h1; simp [trueDepthL, le_max_iff]
      · cases d with
        | none => simpa [trueDepthL] using ih c h2
        | some d' =>
            have := ih c h2
            simp only [trueDepthL]
            omega

/-- Fuel-indexed correctness of Depth on clean graphs of depth at most
    101: Depth computes the specification-side depth, because the
    minus-one cutoff triggers only when the children maximum exceeds
    100 and no failure value arises on a clean tree. -/
theorem depth_fuel : ∀ f : Nat,
    (∀ g : Graph, sizeOf g ≤ f → cleanB g = true → trueDepth g ≤ 101 →
      g.Depth = some ((trueDepth g : Int))) ∧
    (∀ l : List (Option Graph), sizeOf l ≤ f → cleanL l = true → trueDepthL l ≤ 100 →
      depthMax l = some ((trueDepthL l : Int))) := by
  intro f
  induction f with
  | zero =>
      constructor
      · intro g hg
        exfalso
        cases g with
        | G t out => simp only [Graph.G.sizeOf_spec] at hg; omega
      · intro l hl
        exfalso
        cases l with
        | nil => simp at hl
        | cons c rest => simp only [List.cons.sizeOf_spec] at hl; omega
  | succ f ih =>
      constructor
      · intro g hg hc ht
        cases g with
        | G t out =>
            cases out with
            | nil => rfl
            | cons c cs =>
                have hout : trueDepth (Graph.G t (c :: cs)) = 1 + trueDepthL (c :: cs) := by
                  simp [trueDepth]
                have hL : trueDepthL (c :: cs) ≤ 100 := by
                  rw [hout] at ht; omega
                have hsz : sizeOf (c :: cs) ≤ f := by
                  simp only [Graph.G.sizeOf_spec] at hg
                  have h1 : 1 ≤ sizeOf t := by
                    cases t <;> simp +arith
                  omega
                have hcl : cleanL (c :: cs) = true := by
                  simpa [cleanB] using hc
                have hdm := ih.2 (c :: cs) hsz hcl hL
                simp only [Graph.Depth, hdm, hout, List.length_cons]
                have h1 : ¬(cs.length + 1 = 0) := by omega
                rw [if_neg h1]
                have h3 : ¬((trueDepthL (c :: cs) : Int) > 100) := by omega
                rw [if_neg h3]
                norm_cast
                rw [Nat.add_comm]
      · intro l hl hc ht
        cases l with
        | nil => rfl
        | cons c rest =>
            cases c with
            | none => simp [cleanL] at hc
            | some c' =>
                have hcb : cleanB c' = true ∧ cleanL rest = true := by
                  simpa [cleanL, Bool.and_eq_true] using hc
                have hd1 : trueDepth c' ≤ 101 := by
                  have := trueDepthL_mem (some c' :: rest) c' (List.mem_cons_self _ _)
                  omega
                have hsz1 : sizeOf c' ≤ f := by
                  simp only [List.cons.sizeOf_spec, Option.some.sizeOf_spec] at hl
                  omega
                have hsz2 : sizeOf rest ≤ f := by
                  simp only [List.cons.sizeOf_spec, Option.some.sizeOf_spec] at hl
                  have h1 : 1 ≤ sizeOf c' := by
                    cases c' with
                    | G a b => simp only [Graph.G.sizeOf_spec]; omega
                  omega
                have hr : trueDepthL rest ≤ 100 := by
                  simp only [trueDepthL] at ht; omega
                have h1 := ih.1 c' hsz1 hcb.1 hd1
                have h2 := ih.2 rest hsz2 hcb.2 hr
                simp only [depthMax, h1, h2, trueDepthL]
                congr 1
                omega

/-- C5 counterexample.  A chain of structural depth 101 exceeds the
    fixed threshold of 100, yet Depth returns 101, not -1: the cutoff
    compares the children maximum with 100 before adding one and the
    result -1 of a child is not propagated, so the first depth the
    probe reports as -1 is 102. -/
theorem C5_depth_cex :
    trueDepth (chain 101) = 101 ∧ 100 < trueDepth (chain 101) ∧
    (chain 101).Depth = some 101 ∧ (chain 101).Depth ≠ some (-1) := by
  have h1 := chain_trueDepth 101
  have h2 := chain_Depth_le 101 le_rfl
  refine ⟨h1, by omega, by exact_mod_cast h2, ?_⟩
  rw [h2]
  decide

set_option maxRecDepth 4000 in
/-- C5 amended: Depth never throws and returns the actual depth (0 for
    a node with no children) for every clean tree-shaped graph of depth
    at most 101; beyond that, -1 is produced exactly by a node whose
    children maximum exceeds 100 and is not propagated further up: the
    102-chain yields -1 but the 103-chain yields 1 again. -/
theorem C5_depth_threshold_amended :
    (∀ g : Graph, cleanB g = true → trueDepth g ≤ 101 → g.Depth = some ((trueDepth g : Int))) ∧
    (chain 102).Depth = some (-1) ∧ (chain 103).Depth = some 1 := by
  have h101 := chain_Depth_le 101 le_rfl
  have hdm1 : depthMax [some (chain 101)] = some 101 := by
    simp only [depthMax, h101]
    decide
  have h102 : (chain 102).Depth = some (-1) := by
    have hstep : chain 102 = .G (.vstr "n") [some (chain 101)] := rfl
    rw [hstep]
    simp only [Graph.Depth, hdm1, List.length_cons, List.length_nil]
    norm_num
  have hdm2 : depthMax [some (chain 102)] = some 0 := by
    simp only [depthMax, h102]
    decide
  refine ⟨fun g hc1 hc2 => (depth_fuel (sizeOf g)).1 g le_rfl hc1 hc2, h102, ?_⟩
  have hstep : chain 103 = .G (.vstr "n") [some (chain 102)] := rfl
  rw [hstep]
  simp only [Graph.Depth, hdm2, List.length_cons, List.length_nil]
  norm_num

/-- C5 witness: the amended statement applied to the concrete clean
    chain of depth 3. -/
theorem C5_depth_threshold_amended_witness :
    cleanB (chain 3) = true ∧ trueDepth (chain 3) ≤ 101 ∧ (chain 3).Depth = some 3 := by
  refine ⟨by decide, by decide, ?_⟩
  exact (C5_depth_threshold_amended.1 (chain 3) (by decide) (by decide)).trans (by decide)

/-- Accessor computation on the constructor. -/
@[simp]
theorem Graph.This_G (t : Value) (o : List (Option Graph)) : (Graph.G t o).This = t := rfl

/-- Accessor computation on the constructor. -/
@[simp]
theorem Graph.Out_G (t : Value) (o : List (Option Graph)) : (Graph.G t o).Out = o := rfl

/-- C7 counterexample.  The claim states that growing the children list
    fills every gap position with a fresh node and places the target
    scalar at position i.  Writing index 2 into a childless node
    produces children whose gap positions are nil pointers, not fresh
    nodes, and whose position 2 holds a node wrapping the one-element
    argument slice of New around the scalar, not the bare scalar. -/
theorem C7_index_growth_cex :
    (setFn (.G (.vstr "r") [])
        [some (.G (.vstr TypeIndex) [some (.G (.vstr "2") [])])] (.vstr "v") =
      some (.G (.vstr "r") [none, none, some (.G (.vslice [.vstr "v"]) [])],
        .G (.vslice [.vstr "v"]) [])) ∧
    ([none, none, some (.G (.vslice [.vstr "v"]) [])] : List (Option Graph)) ≠
      [some (.G .vnil []), some (.G .vnil []), some (.G (.vstr "v") [])] := by
  refine ⟨rfl, by simp⟩

/-- C7 amended: for an index element whose value i is at least the
    current child count, set grows the children list to length i+1,
    preserving the existing children, leaving every new gap position a
    nil pointer, and placing at position i a fresh node built by New
    from the single value; the list never shrinks. -/
theorem C7_index_growth_amended (node el : Graph) (i : Int) (v : Value)
    (htag : el.ThisString = TypeIndex) (hval : el.Int64 = i)
    (hge : (node.Out.length : Int) ≤ i) :
    ∃ g2, setFn node [some el] v = some (g2, Graph.New [v]) ∧
      g2.This = node.This ∧
      g2.Out.length = i.toNat + 1 ∧
      (∀ j : Nat, j < node.Out.length → g2.Out[j]? = node.Out[j]?) ∧
      (∀ j : Nat, node.Out.length ≤ j → j < i.toNat → g2.Out[j]? = some none) ∧
      g2.Out[i.toNat]? = some (some (Graph.New [v])) ∧
      node.Out.length ≤ g2.Out.length := by
  have hlen : node.Out.length ≤ i.toNat := by omega
  have hneg : ¬i < 0 := by omega
  have hstep : setFn node [some el] v =
      some (.G node.This ((node.Out ++
          List.replicate (i.toNat + 1 - node.Out.length) none).set i.toNat
          (some (Graph.New [v]))), Graph.New [v]) := by
    simp only [setFn, htag, if_pos, hval, setIndexStep, if_neg hneg, if_pos hlen]
  refine ⟨_, hstep, rfl, ?_, ?_, ?_, ?_, ?_⟩
  · simp only [Graph.Out_G, List.length_set, List.length_append, List.length_replicate]
    omega
  · intro j hj
    simp only [Graph.Out_G]
    rw [List.getElem?_set_ne (by omega), List.getElem?_append_left hj]
  · intro j hj1 hj2
    simp only [Graph.Out_G]
    rw [List.getElem?_set_ne (by omega), List.getElem?_append_right hj1,
      List.getElem?_replicate_of_lt (by omega)]
  · simp only [Graph.Out_G]
    rw [List.getElem?_set_self (by simp [List.length_append, List.length_replicate]; omega)]
  · simp only [Graph.Out_G, List.length_set, List.length_append, List.length_replicate]
    omega

/-- C7 witness: the amended growth law applied to a node with one child
    and index 3. -/
theorem C7_index_growth_amended_witness :
    ∃ g2, setFn (.G (.vstr "r") [some (.G (.vstr "c0") [])])
        [some (.G (.vstr TypeIndex) [some (.G (.vstr "3") [])])] (.vstr "v") =
      some (g2, Graph.New [.vstr "v"]) ∧ g2.Out.length = 4 := by
  obtain ⟨g2, h1, _, h3, _⟩ := C7_index_growth_amended
    (.G (.vstr "r") [some (.G (.vstr "c0") [])])
    (.G (.vstr TypeIndex) [some (.G (.vstr "3") [])]) 3 (.vstr "v")
    (by decide) (by decide) (by decide)
  exact ⟨g2, h1, by rw [h3]; rfl⟩

/-- In the construction loop of set, everything after an index element
    is ignored: the index branch places and returns immediately. -/
theorem buildFn_ignore_after_index (iel : Graph) (post : List (Option Graph)) (v : Value)
    (htag : iel.ThisString = TypeIndex) :
    ∀ (pre : List (Option Graph)) (g : Graph),
    buildFn g (pre ++ some iel :: post) v = buildFn g (pre ++ [some iel]) v := by
  intro pre
  induction pre with
  | nil =>
      intro g
      simp only [List.nil_append, buildFn, htag, if_pos]
  | cons e pre' ih =>
      intro g
      cases e with
      | none => simp only [List.cons_append, buildFn]
      | some elem =>
          simp only [List.cons_append, buildFn]
          by_cases ht : elem.ThisString = TypeIndex
          · simp [ht]
          · rw [if_neg ht, if_neg ht]
            cases helt : elem.This with
            | vgraph og =>
                cases og with
                | none => simp only [List.append_eq, ih]
                | some t =>
                    cases htr : t.IsNil with
                    | true => simp only [if_pos rfl, List.append_eq, ih]
                    | false => simp only [Bool.false_eq_true, if_neg, ite_false,
                        List.append_eq, ih]
            | vnil => simp only [List.append_eq, ih]
            | vbool b => simp only [List.append_eq, ih]
            | vint64 n => simp only [List.append_eq, ih]
            | vgoint n => simp only [List.append_eq, ih]
            | vfloat q => simp only [List.append_eq, ih]
            | vstr s => simp only [List.append_eq, ih]
            | vbytes bs => simp only [List.append_eq, ih]
            | vslice vs => simp only [List.append_eq, ih]

/-- C10.  For every path containing an index element, set terminates at
    the first index element encountered no matter which loop reaches it:
    the elements after it are never traversed or created (the results
    with and without them are identical), and at the index step the
    value is placed (wrapped by New) at position i of the node reached
    so far, the freshly placed node is returned, and the other children
    of that node are preserved, so the terminal overwrite that discards
    children is skipped. -/
theorem C10_set_index_terminates :
    (∀ (g : Graph) (pre : List (Option Graph)) (iel : Graph) (post : List (Option Graph))
        (v : Value), iel.ThisString = TypeIndex →
      setFn g (pre ++ some iel :: post) v = setFn g (pre ++ [some iel]) v) ∧
    (∀ (g iel : Graph) (v : Value) (i : Int), iel.ThisString = TypeIndex →
      iel.Int64 = i → 0 ≤ i →
      ∃ g2, setFn g [some iel] v = some (g2, Graph.New [v]) ∧ g2.This = g.This ∧
        (∀ j : Nat, j < g.Out.length → j ≠ i.toNat → g2.Out[j]? = g.Out[j]?)) := by
  constructor
  · intro g pre iel post v htag
    induction pre generalizing g with
    | nil => simp only [List.nil_append, setFn, htag, if_pos]
    | cons e pre' ih =>
        cases e with
        | none => simp only [List.cons_append, setFn]
        | some elem =>
            simp only [List.cons_append, setFn]
            by_cases ht : elem.ThisString = TypeIndex
            · simp [ht]
            · rw [if_neg ht, if_neg ht]
              cases findNode g.Out elem.ThisString with
              | none => simp
              | some fr =>
                  cases fr with
                  | none =>
                      exact buildFn_ignore_after_index iel post v htag (some elem :: pre') g
                  | some jc =>
                      obtain ⟨j, c⟩ := jc
                      simp only [List.append_eq, ih]
  · intro g iel v i htag hval hpos
    have hneg : ¬i < 0 := by omega
    by_cases hgrow : g.Out.length ≤ i.toNat
    · have hstep : setFn g [some iel] v =
          some (.G g.This ((g.Out ++
              List.replicate (i.toNat + 1 - g.Out.length) none).set i.toNat
              (some (Graph.New [v]))), Graph.New [v]) := by
        simp only [setFn, htag, if_pos, hval, setIndexStep, if_neg hneg, if_pos hgrow]
      refine ⟨_, hstep, rfl, ?_⟩
      intro j hj hne
      simp only [Graph.Out_G]
      rw [List.getElem?_set_ne (by omega), List.getElem?_append_left hj]
    · have hstep : setFn g [some iel] v =
          some (.G g.This (g.Out.set i.toNat (some (Graph.New [v]))), Graph.New [v]) := by
        simp only [setFn, htag, if_pos, hval, setIndexStep, if_neg hneg, if_neg hgrow]
      refine ⟨_, hstep, rfl, ?_⟩
      intro j hj hne
      simp only [Graph.Out_G]
      rw [List.getElem?_set_ne (by omega)]

/-- C10 witness: the suffix after the index element makes no difference
    on a concrete two-element path followed by a trailing element. -/
theorem C10_set_index_terminates_witness :
    setFn (.G (.vstr "r") [])
        ([some (.G (.vstr "a") [])] ++ some (.G (.vstr TypeIndex) [some (.G (.vstr "1") [])]) ::
          [some (.G (.vstr "zz") [])]) (.vstr "v") =
      setFn (.G (.vstr "r") [])
        ([some (.G (.vstr "a") [])] ++ [some (.G (.vstr TypeIndex) [some (.G (.vstr "1") [])])])
        (.vstr "v") :=
  C10_set_index_terminates.1 (.G (.vstr "r") []) [some (.G (.vstr "a") [])]
    (.G (.vstr TypeIndex) [some (.G (.vstr "1") [])]) [some (.G (.vstr "zz") [])]
    (.vstr "v") (by decide)

/-- The loop of addEqualNodes without recursion appends exactly the
    concatenated children of the matching nodes, in document order. -/
theorem addEqualList_flat : ∀ (l : List (Option Graph)) (g : Graph) (key : String),
    allSomeL l = true →
    addEqualList g l key false = some (.G g.This (g.Out ++ matchedChildren l key)) := by
  intro l
  induction l with
  | nil =>
      intro g key _
      simp [addEqualList, matchedChildren, Graph.eta]
  | cons c rest ih =>
      intro g key hs
      cases c with
      | none => simp [allSomeL] at hs
      | some n =>
          have hs' : allSomeL rest = true := by
            simpa [allSomeL] using hs
          by_cases hk : key = goString n.This
          · rw [show addEqualList g (some n :: rest) key false
                = addEqualList (g.AddNodes (some n)) rest key false by
              simp [addEqualList, hk]]
            rw [ih _ _ hs']
            have hk2 : goString n.This = key := hk.symm
            simp [Graph.AddNodes, matchedChildren, hk2, List.append_assoc]
          · rw [show addEqualList g (some n :: rest) key false
                = addEqualList g rest key false by
              simp [addEqualList, hk]]
            rw [ih _ _ hs']
            have hk2 : ¬goString n.This = key := fun h => hk h.symm
            simp [matchedChildren, hk2]

/-- The numbered-selector scan finds the N-th (0-based) node whose text
    equals the key, or reports not-found past the end. -/
theorem selectNth_spec : ∀ (l : List (Option Graph)) (key : String) (N : Nat),
    allSomeL l = true →
    selectNth l key ((N : Int) + 1) =
      match (matchesOf l key).get? N with
      | some nn => some (some nn)
      | none => some none := by
  intro l
  induction l with
  | nil => intro key N _; simp [selectNth, matchesOf]
  | cons c rest ih =>
      intro key N hs
      cases c with
      | none => simp [allSomeL] at hs
      | some nn =>
          have hs' : allSomeL rest = true := by simpa [allSomeL] using hs
          by_cases hk : nn.ThisString = key
          · have hk2 : goString nn.This = key := hk
            cases N with
            | zero =>
                simp [selectNth, hk, matchesOf, hk2]
            | succ m =>
                push_cast
                rw [show selectNth (some nn :: rest) key ((m : Int) + 1 + 1)
                    = selectNth rest key ((m : Int) + 1) by
                  simp only [selectNth, if_pos hk]
                  rw [if_neg (by omega)]
                  congr 1
                  ring]
                rw [ih key m hs']
                simp [matchesOf, hk2]
          · have hk2 : ¬goString nn.This = key := hk
            rw [show selectNth (some nn :: rest) key ((N : Int) + 1)
                = selectNth rest key ((N : Int) + 1) by
              simp [selectNth, hk]]
            rw [ih key N hs']
            simp [matchesOf, hk2]

/-- C6 amended: after a field-name element that matched x, the empty
    selector returns a single freshly built transparent container whose
    children are the concatenated children of every same-level node
    whose text equals x, in document order (not the matching sibling
    nodes themselves), failing with the nil sentinel exactly when that
    concatenation is empty; the numbered selector N returns a container
    holding the children of the N-th (0-based) such node, failing when
    fewer than N+1 matches exist. -/
theorem C6_selector_amended (g : Graph) (px : Value) (x : String) (m : Graph)
    (hx0 : x ≠ "") (hxi : x ≠ TypeIndex) (hxs : x ≠ TypeSelector) (hxl : x ≠ "_len")
    (hsome : allSomeL g.Out = true)
    (hfound : nodeScan g.Out x = some (some m)) :
    (g.get (some (.G px [some (.G (.vstr x) []), some (.G (.vstr TypeSelector) [])])) =
      if (matchedChildren g.Out x).isEmpty then some none
      else some (some (.G .vnil (matchedChildren g.Out x)))) ∧
    (∀ (st : String) (N : Nat), atoi st = some ((N : Nat) : Int) →
      g.get (some (.G px [some (.G (.vstr x) []),
          some (.G (.vstr TypeSelector) [some (.G (.vstr st) [])])])) =
        match (matchesOf g.Out x).get? N with
        | some nn => some (some (.G .vnil nn.Out))
        | none => some none) := by
  obtain ⟨gt, gout⟩ := g
  simp only [Graph.Out_G] at hsome hfound ⊢
  have hgne : ¬(gout.length = 0) := by
    cases gout with
    | nil => simp [nodeScan] at hfound
    | cons a l => simp
  have hxlen : ¬(x.length = 0) := fun h => hx0 (by
    cases x with
    | mk d => cases d with
      | nil => rfl
      | cons a l => simp [String.length] at h)
  have hstep1 : ∀ sel : Option Graph,
      getLoop (.G gt gout) none "" true [some (.G (.vstr x) []), sel] =
        getLoop m (some (.G gt gout)) x true [sel] := by
    intro sel
    simp only [getLoop, Graph.ThisString, Graph.This_G, goString, if_neg hxi,
      if_neg hxs, if_neg hxl, Graph.Node, Graph.Out_G, hfound]
  have hflat := addEqualList_flat gout (.G .vnil []) x hsome
  constructor
  · show Graph.get _ _ = _
    simp only [Graph.get, Graph.Out_G, hstep1]
    by_cases hmc : matchedChildren gout x = []
    · simp +decide [getLoop, Graph.ThisString, Graph.This_G, Graph.Out_G, goString,
        hgne, hxlen, Graph.New, Graph.addEqualNodes, hflat, hmc]
    · have hml : ¬((matchedChildren gout x).length = 0) := by
        simpa [List.length_eq_zero] using hmc
      have hie : (matchedChildren gout x).isEmpty = false := by
        simpa [List.isEmpty_iff] using hmc
      simp +decide [getLoop, Graph.ThisString, Graph.This_G, Graph.Out_G, goString,
        hgne, hxlen, Graph.New, Graph.addEqualNodes, hflat, hml, hie, Value.isNilV]
  · intro st N hatoi
    have hNneg : ¬((N : Int) < 0) := by omega
    show Graph.get _ _ = _
    simp only [Graph.get, Graph.Out_G, hstep1]
    have hsel := selectNth_spec gout x N hsome
    cases hm : (matchesOf gout x).get? N with
    | none =>
        rw [hm] at hsel
        simp +decide [getLoop, Graph.ThisString, Graph.This_G, Graph.Out_G, goString,
          hgne, hxlen, hatoi, hNneg, hsel]
    | some nn =>
        rw [hm] at hsel
        simp +decide [getLoop, Graph.ThisString, Graph.This_G, Graph.Out_G, goString,
          hgne, hxlen, hatoi, hNneg, hsel, Graph.New, Graph.AddNodes, Value.isNilV]

/-- C6 counterexample.  On root (x (a)) (x (b)) the path x followed by
    the empty selector returns the container holding a and b (the
    children of the matching siblings), not the siblings x (a) and
    x (b) themselves as the claim states; a selector immediately after
    an index element succeeds rather than failing (the index branch
    also sets the selector context); and when every match is a leaf the
    selector fails even though matching siblings exist. -/
theorem C6_selector_cex :
    ((Graph.G (.vstr "root") [some (.G (.vstr "x") [some (.G (.vstr "a") [])]),
        some (.G (.vstr "x") [some (.G (.vstr "b") [])])]).get
      (some (.G (.vstr TYPE_PATH) [some (.G (.vstr "x") []),
        some (.G (.vstr TypeSelector) [])])) =
      some (some (.G .vnil [some (.G (.vstr "a") []), some (.G (.vstr "b") [])]))) ∧
    ([some (.G (.vstr "a") []), some (.G (.vstr "b") [])] : List (Option Graph)) ≠
      [some (.G (.vstr "x") [some (.G (.vstr "a") [])]),
       some (.G (.vstr "x") [some (.G (.vstr "b") [])])] ∧
    ((Graph.G (.vstr "root") [some (.G (.vstr "x") [some (.G (.vstr "a") [])]),
        some (.G (.vstr "x") [some (.G (.vstr "b") [])])]).get
      (some (.G (.vstr TYPE_PATH) [some (.G (.vstr TypeIndex) [some (.G (.vstr "0") [])]),
        some (.G (.vstr TypeSelector) [])])) =
      some (some (.G .vnil [some (.G (.vstr "a") []), some (.G (.vstr "b") [])]))) ∧
    some (some (Graph.G .vnil [some (.G (.vstr "a") []), some (.G (.vstr "b") [])])) ≠
      (some none : Option (Option Graph)) ∧
    ((Graph.G (.vstr "root") [some (.G (.vstr "x") []),
        some (.G (.vstr "x") [])]).get
      (some (.G (.vstr TYPE_PATH) [some (.G (.vstr "x") []),
        some (.G (.vstr TypeSelector) [])])) = some none) := by
  refine ⟨rfl, by simp, rfl, by simp, rfl⟩

/-- C6 witness: the amended selector laws applied on the concrete graph
    root (x (a)) (x (b)) for the empty selector and selector 1. -/
theorem C6_selector_amended_witness :
    ((Graph.G (.vstr "root") [some (.G (.vstr "x") [some (.G (.vstr "a") [])]),
        some (.G (.vstr "x") [some (.G (.vstr "b") [])])]).get
      (some (.G (.vstr TYPE_PATH) [some (.G (.vstr "x") []),
        some (.G (.vstr TypeSelector) [])])) =
      some (some (.G .vnil [some (.G (.vstr "a") []), some (.G (.vstr "b") [])]))) ∧
    ((Graph.G (.vstr "root") [some (.G (.vstr "x") [some (.G (.vstr "a") [])]),
        some (.G (.vstr "x") [some (.G (.vstr "b") [])])]).get
      (some (.G (.vstr TYPE_PATH) [some (.G (.vstr "x") []),
        some (.G (.vstr TypeSelector) [some (.G (.vstr "1") [])])])) =
      some (some (.G .vnil [some (.G (.vstr "b") [])]))) := by
  have h := C6_selector_amended
    (.G (.vstr "root") [some (.G (.vstr "x") [some (.G (.vstr "a") [])]),
      some (.G (.vstr "x") [some (.G (.vstr "b") [])])])
    (.vstr TYPE_PATH) "x" (.G (.vstr "x") [some (.G (.vstr "a") [])])
    (by decide) (by decide) (by decide) (by decide) (by decide) rfl
  constructor
  · exact h.1.trans (by rfl)
  · exact (h.2 "1" 1 (by decide)).trans (by rfl)

/-- C8.  Logical operators evaluate both operands with no short
    circuit: in the expression false AND (x = snum), the right operand
    is an assignment and its effect on the context is exactly the
    effect of the corresponding set call even though the left operand is
    false (indeed the source evaluates the right operand first); the
    overall result is false, here through the coercion rule, because
    the assignment returns a graph pointer that fails the boolean
    coercion.  The second conjunct is that rule in general: whenever
    either operand fails to coerce to boolean, logic yields false. -/
theorem C8_logic_no_short_circuit :
    (∀ (g g1 : Graph) (x snum : String) (k : Int) (ret : Graph),
      g.set (some (.G (.vstr TYPE_PATH) [some (.G (.vstr x) [])])) (.vint64 k) =
        some (g1, ret) →
      isNumber snum = true → parseNumber snum = .vint64 k →
      g.EvalExpression (some (.G (.vstr "&&")
          [some (.G (.vstr "false") []),
           some (.G (.vstr "=")
             [some (.G (.vstr TYPE_PATH) [some (.G (.vstr x) [])]),
              some (.G (.vstr snum) [])])])) = some (g1, .vbool false)) ∧
    (∀ (v1 v2 : Value) (op : Char), boolf v1 = none ∨ boolf v2 = none →
      logicFn v1 v2 op = false) := by
  constructor
  · intro g g1 x snum k ret hset hnum hparse
    have hne : ¬(snum.length = 0) := by
      intro h
      have hs : snum = "" := by
        cases snum with
        | mk d => cases d with
          | nil => rfl
          | cons a l => simp [String.length] at h
      rw [hs] at hnum
      exact absurd hnum (by decide)
    simp +decide [Graph.EvalExpression, Graph.evalBinary, Graph.assign, Graph.Str,
      Graph.This_G, Graph.Number, goString, Value.isNilV, headChar, IsOperatorChar,
      IsLetter, hne, hnum, hparse, hset, logicFn, boolf]
  · intro v1 v2 op h
    cases hb1 : boolf v1 with
    | none => simp [logicFn, hb1]
    | some b1 =>
        cases hb2 : boolf v2 with
        | none => simp [logicFn, hb1, hb2]
        | some b2 =>
            rcases h with h | h
            · rw [hb1] at h; exact absurd h (by simp)
            · rw [hb2] at h; exact absurd h (by simp)

/-- C8 witness: the evaluation law applied on an empty context with the
    assignment b = 5 as the right operand of the conjunction: b is
    written and the result is false. -/
theorem C8_logic_no_short_circuit_witness :
    (Graph.G (.vstr "r") []).EvalExpression (some (.G (.vstr "&&")
        [some (.G (.vstr "false") []),
         some (.G (.vstr "=")
           [some (.G (.vstr TYPE_PATH) [some (.G (.vstr "b") [])]),
            some (.G (.vstr "5") [])])])) =
      some (.G (.vstr "r") [some (.G (.vstr "b") [some (.G (.vint64 5) [])])],
        .vbool false) :=
  C8_logic_no_short_circuit.1 (.G (.vstr "r") [])
    (.G (.vstr "r") [some (.G (.vstr "b") [some (.G (.vint64 5) [])])])
    "b" "5" 5 (.G (.vint64 5) []) rfl (by decide) rfl

/-- Cleanliness of a node is cleanliness of its children list. -/
theorem cleanB_out (g : Graph) : cleanB g = cleanL g.Out := by
  cases g; rfl

/-- Add on a non-graph value appends a fresh leaf holding it. -/
theorem Add_scalar (g : Graph) (v : Value) (hv : Value.isGraphV v = false) :
    g.Add v = (.G g.This (g.Out ++ [some (.G v [])]), .G v []) := by
  cases v <;> simp [Graph.Add, Value.isGraphV] at hv ⊢

/-- A plain path element is a non-nil node with a string content that
    is none of the reserved tags. -/
theorem plainElem_spec (e : Option Graph) (h : plainElem e = true) :
    ∃ s eout, e = some (.G (.vstr s) eout) ∧
      s ≠ TypeIndex ∧ s ≠ TypeSelector ∧ s ≠ "_len" := by
  cases e with
  | none => simp [plainElem] at h
  | some el =>
      cases el with
      | G t eout =>
          cases t with
          | vstr s =>
              simp only [plainElem, Bool.not_eq_eq_eq_not, Bool.not_true,
                decide_eq_false_iff_not] at h
              push_neg at h
              exact ⟨s, eout, rfl, h.1, h.2.1, h.2.2⟩
          | vnil => simp [plainElem] at h
          | vbool b => simp [plainElem] at h
          | vint64 n => simp [plainElem] at h
          | vgoint n => simp [plainElem] at h
          | vfloat q => simp [plainElem] at h
          | vbytes bs => simp [plainElem] at h
          | vslice vs => simp [plainElem] at h
          | vgraph og => simp [plainElem] at h

/-- The scan of Node and the position-tracking scan of the functional
    set agree. -/
theorem nodeScan_of_findNode : ∀ (l : List (Option Graph)) (s : String),
    nodeScan l s = (findNode l s).map (Option.map Prod.snd) := by
  intro l
  induction l with
  | nil => intro s; rfl
  | cons c rest ih =>
      intro s
      cases c with
      | none => rfl
      | some n =>
          by_cases hk : s = goString n.This
          · simp [nodeScan, findNode, hk]
          · simp only [nodeScan, findNode, if_neg hk, ih]
            cases findNode rest s with
            | none => rfl
            | some fr => cases fr with
              | none => rfl
              | some jc => rfl

/-- On a clean children list the scan never hits a run-time error: it
    reports not-found or the first matching node, which is clean. -/
theorem findNode_cases : ∀ (l : List (Option Graph)) (s : String), cleanL l = true →
    findNode l s = some none ∨
      ∃ j c, findNode l s = some (some (j, c)) ∧ goString c.This = s ∧ cleanB c = true := by
  intro l
  induction l with
  | nil => intro s _; left; rfl
  | cons e rest ih =>
      intro s hc
      cases e with
      | none => simp [cleanL] at hc
      | some n =>
          have hc' : cleanB n = true ∧ cleanL rest = true := by
            simpa [cleanL, Bool.and_eq_true] using hc
          by_cases hk : s = goString n.This
          · right
            exact ⟨0, n, by simp [findNode, hk], hk.symm, hc'.1⟩
          · rcases ih s hc'.2 with h | ⟨j, c, h, hcs, hcb⟩
            · left; simp [findNode, if_neg hk, h]
            · right
              exact ⟨j + 1, c, by simp [findNode, if_neg hk, h], hcs, hcb⟩

/-- A scan that found nothing in the first part continues unchanged in
    the appended part. -/
theorem nodeScan_append_notfound : ∀ (l1 l2 : List (Option Graph)) (s : String),
    nodeScan l1 s = some none → nodeScan (l1 ++ l2) s = nodeScan l2 s := by
  intro l1
  induction l1 with
  | nil => intro l2 s _; rfl
  | cons e rest ih =>
      intro l2 s h
      cases e with
      | none => simp [nodeScan] at h
      | some n =>
          by_cases hk : s = goString n.This
          · simp [nodeScan, if_pos hk] at h
          · simp only [List.cons_append, nodeScan, if_neg hk] at h ⊢
            exact ih l2 s h

/-- Replacing the first matching node by one with the same text keeps
    it the first match of the scan. -/
theorem nodeScan_set_found : ∀ (l : List (Option Graph)) (s : String) (j : Nat)
    (c d : Graph), findNode l s = some (some (j, c)) →
    goString d.This = goString c.This →
    nodeScan (l.set j (some d)) s = some (some d) := by
  intro l
  induction l with
  | nil => intro s j c d h _; simp [findNode] at h
  | cons e rest ih =>
      intro s j c d h hd
      cases e with
      | none => simp [findNode] at h
      | some n =>
          by_cases hk : s = goString n.This
          · simp only [findNode, if_pos hk, Option.some.injEq, Prod.mk.injEq] at h
            obtain ⟨hj, hcn⟩ := h
            subst hj
            subst hcn
            simp only [List.set_cons_zero, nodeScan]
            rw [if_pos (by rw [hd]; exact hk)]
          · simp only [findNode, if_neg hk] at h
            cases hf : findNode rest s with
            | none => rw [hf] at h; simp at h
            | some fr =>
                cases fr with
                | none => rw [hf] at h; simp at h
                | some jc =>
                    obtain ⟨j', c'⟩ := jc
                    rw [hf] at h
                    simp only [Option.some.injEq, Prod.mk.injEq] at h
                    obtain ⟨hj, hc⟩ := h
                    subst hj
                    subst hc
                    simp only [List.set_cons_succ, nodeScan, if_neg hk]
                    exact ih s j' c' d hf hd

/-- Cleanliness distributes over list append. -/
theorem cleanL_append : ∀ (l1 l2 : List (Option Graph)),
    cleanL (l1 ++ l2) = (cleanL l1 && cleanL l2) := by
  intro l1
  induction l1 with
  | nil => intro l2; rfl
  | cons e rest ih =>
      intro l2
      cases e with
      | none => rfl
      | some n => simp [cleanL, ih, Bool.and_assoc]

/-- Replacing a position by a clean node preserves cleanliness. -/
theorem cleanL_set : ∀ (l : List (Option Graph)) (j : Nat) (d : Graph),
    cleanL l = true → cleanB d = true → cleanL (l.set j (some d)) = true := by
  intro l
  induction l with
  | nil => intro j d _ _; rfl
  | cons e rest ih =>
      intro j d hl hd
      cases e with
      | none => simp [cleanL] at hl
      | some n =>
          have h2 : cleanB n = true ∧ cleanL rest = true := by
            simpa [cleanL, Bool.and_eq_true] using hl
          cases j with
          | zero => simp [List.set_cons_zero, cleanL, hd, h2.2]
          | succ j' =>
              simp [List.set_cons_succ, cleanL, h2.1, ih j' d h2.2 hd]

/-- The final step of get after a field-name element returns the node
    reached, unwrapped. -/
theorem getLoop_nil_iknow (node : Graph) (np : Option Graph) (ep : String) :
    getLoop node np ep true [] = some (some node) := by
  simp [getLoop]

/-- One step of the get loop on a plain field-name element: look the
    name up among the children of the current node (the iknow flag is
    set, the previous-level bookkeeping updated). -/
theorem getLoop_plain_step (node : Graph) (np : Option Graph) (ep : String) (ik : Bool)
    (s : String) (eout : List (Option Graph)) (rest : List (Option Graph))
    (h1 : s ≠ TypeIndex) (h2 : s ≠ TypeSelector) (h3 : s ≠ "_len") :
    getLoop node np ep ik (some (.G (.vstr s) eout) :: rest) =
      match nodeScan node.Out s with
      | none => none
      | some none => some none
      | some (some nn) => getLoop nn (some node) s true rest := by
  simp only [getLoop, Graph.ThisString, Graph.This_G, goString, if_neg h1, if_neg h2,
    if_neg h3, Graph.Node]

/-- Construction mode of set followed by get: building a fresh chain
    for a plain path whose head is absent from the current node ends in
    a node holding exactly the written value, and re-reading the same
    path finds that chain. -/
theorem buildget : ∀ (elems : List (Option Graph)), plainPath elems = true →
    ∀ (g : Graph) (v : Value), Value.isGraphV v = false → cleanB g = true →
    (∀ el tl, elems = some el :: tl → findNode g.Out el.ThisString = some none) →
    ∃ g2 : Graph, buildFn g elems v = some (g2, .G v []) ∧ g2.This = g.This ∧
      cleanB g2 = true ∧
      ∀ (np : Option Graph) (ep : String), ∃ r,
        getLoop g2 np ep true elems = some (some r) ∧ r.Out = [some (.G v [])] := by
  intro elems
  induction elems with
  | nil =>
      intro _ g v hv hc _
      refine ⟨.G g.This [some (.G v [])], ?_, rfl, ?_, ?_⟩
      · simp only [buildFn, Add_scalar _ _ hv, Graph.This_G, Graph.Out_G,
          List.nil_append]
      · simp [cleanB, cleanL, cleanB_out]
      · intro np ep
        exact ⟨_, getLoop_nil_iknow _ np ep, by simp⟩
  | cons e rest ih =>
      intro hplain g v hv hc hnf
      have hpe : plainElem e = true ∧ plainPath rest = true := by
        simpa [plainPath, List.all_cons, Bool.and_eq_true] using hplain
      obtain ⟨s, eout, rfl, hs1, hs2, hs3⟩ := plainElem_spec e hpe.1
      have hts : Graph.ThisString (.G (.vstr s) eout) = s := rfl
      obtain ⟨c2, hb, hthis, hcln, hget⟩ :=
        ih hpe.2 (.G (.vstr s) []) v hv (by simp [cleanB, cleanL])
          (fun el tl hr => rfl)
      have hbuild : buildFn g (some (.G (.vstr s) eout) :: rest) v =
          some (.G g.This (g.Out ++ [some c2]), .G v []) := by
        simp only [buildFn, hts, if_neg hs1, Graph.This_G, hb]
      refine ⟨.G g.This (g.Out ++ [some c2]), hbuild, rfl, ?_, ?_⟩
      · simp only [cleanB_out, Graph.Out_G, cleanL_append]
        rw [← cleanB_out g]
        simp [hc, cleanL, hcln]
      · intro np ep
        have hscan : nodeScan g.Out s = some none := by
          have := hnf (.G (.vstr s) eout) rest rfl
          rw [hts] at this
          rw [nodeScan_of_findNode, this]
          rfl
        have hstep := getLoop_plain_step (.G g.This (g.Out ++ [some c2])) np ep true
          s eout rest hs1 hs2 hs3
        rw [hstep]
        have hscan2 : nodeScan ((Graph.G g.This (g.Out ++ [some c2])).Out) s =
            some (some c2) := by
          simp only [Graph.Out_G]
          rw [nodeScan_append_notfound _ _ _ hscan]
          have hc2t : c2.This = Value.vstr s := hthis.trans (Graph.This_G _ _)
          simp [nodeScan, hc2t, goString]
        rw [hscan2]
        exact hget (some (.G g.This (g.Out ++ [some c2]))) s

/-- Main roundtrip induction: writing a scalar through a plain path
    into a clean graph succeeds, preserves cleanliness, and re-reading
    the same path resolves to a node whose children are exactly the
    single fresh node holding the value. -/
theorem setget : ∀ (elems : List (Option Graph)), plainPath elems = true →
    ∀ (g : Graph) (v : Value), Value.isGraphV v = false → cleanB g = true →
    ∃ g2 : Graph, setFn g elems v = some (g2, .G v []) ∧ g2.This = g.This ∧
      cleanB g2 = true ∧
      ∀ (np : Option Graph) (ep : String), ∃ r,
        getLoop g2 np ep true elems = some (some r) ∧ r.Out = [some (.G v [])] := by
  intro elems
  induction elems with
  | nil =>
      intro _ g v hv hc
      refine ⟨.G g.This [some (.G v [])], ?_, rfl, ?_, ?_⟩
      · simp only [setFn, Add_scalar _ _ hv, Graph.This_G, Graph.Out_G, List.nil_append]
      · simp [cleanB, cleanL, cleanB_out]
      · intro np ep
        exact ⟨_, getLoop_nil_iknow _ np ep, by simp⟩
  | cons e rest ih =>
      intro hplain g v hv hc
      have hpe : plainElem e = true ∧ plainPath rest = true := by
        simpa [plainPath, List.all_cons, Bool.and_eq_true] using hplain
      obtain ⟨s, eout, rfl, hs1, hs2, hs3⟩ := plainElem_spec e hpe.1
      have hts : Graph.ThisString (.G (.vstr s) eout) = s := rfl
      rcases findNode_cases g.Out s (by rw [← cleanB_out]; exact hc) with hnf | hfound
      · -- not found: construction mode
        obtain ⟨g2, hb, hthis, hcln, hget⟩ :=
          buildget (some (.G (.vstr s) eout) :: rest) hplain g v hv hc
            (fun el tl hr => by
              obtain ⟨h1, h2⟩ : el = .G (.vstr s) eout ∧ tl = rest := by
                cases hr; exact ⟨rfl, rfl⟩
              rw [h1, hts]
              exact hnf)
        refine ⟨g2, ?_, hthis, hcln, hget⟩
        simp only [setFn, hts, if_neg hs1, hnf, hb]
      · -- found: descend
        obtain ⟨j, c, hfj, hcs, hcb⟩ := hfound
        obtain ⟨c2, hsf, hthis, hcln, hget⟩ := ih hpe.2 c v hv hcb
        have hset : setFn g (some (.G (.vstr s) eout) :: rest) v =
            some (.G g.This (g.Out.set j (some c2)), .G v []) := by
          simp only [setFn, hts, if_neg hs1, hfj, hsf]
        refine ⟨.G g.This (g.Out.set j (some c2)), hset, rfl, ?_, ?_⟩
        · simp only [cleanB_out, Graph.Out_G]
          exact cleanL_set g.Out j c2 (by rw [← cleanB_out]; exact hc) hcln
        · intro np ep
          have hstep := getLoop_plain_step (.G g.This (g.Out.set j (some c2))) np ep true
            s eout rest hs1 hs2 hs3
          rw [hstep]
          have hscan2 : nodeScan ((Graph.G g.This (g.Out.set j (some c2))).Out) s =
              some (some c2) := by
            simp only [Graph.Out_G]
            exact nodeScan_set_found g.Out s j c c2 hfj (by rw [hthis, hcs])
          rw [hscan2]
          exact hget (some (.G g.This (g.Out.set j (some c2)))) s

/-- C3.  For every clean context graph, every non-graph scalar value v
    and every unambiguous path (each element a plain field name),
    performing set and then get on the same path succeeds and returns
    the newly written value: the resolved node holds exactly one child,
    the fresh node holding v.  (On the graph side of get this terminal
    node is the raw resolved node, as the source returns it unwrapped
    for field-name resolution.) -/
theorem C3_set_get_roundtrip (g : Graph) (px : Value) (elems : List (Option Graph))
    (v : Value) (hplain : plainPath elems = true) (hv : Value.isGraphV v = false)
    (hclean : cleanB g = true) :
    ∃ g2 ret, g.set (some (.G px elems)) v = some (g2, ret) ∧
      ∃ r, g2.get (some (.G px elems)) = some (some r) ∧ r.Out = [some (.G v [])] := by
  obtain ⟨g2, hs, _, _, hget⟩ := setget elems hplain g v hv hclean
  obtain ⟨r, hr, hro⟩ := hget none ""
  refine ⟨g2, .G v [], ?_, r, ?_, hro⟩
  · simpa only [Graph.set, Graph.Out_G] using hs
  · simpa only [Graph.get, Graph.Out_G] using hr

/-- C3 witness: the roundtrip applied on a concrete graph with an
    unrelated child and the two-element path a.b, writing 9. -/
theorem C3_set_get_roundtrip_witness :
    ∃ g2 ret, (Graph.G (.vstr "r") [some (.G (.vstr "q") [])]).set
        (some (.G (.vstr TYPE_PATH) [some (.G (.vstr "a") []), some (.G (.vstr "b") [])]))
        (.vint64 9) = some (g2, ret) ∧
      ∃ r, g2.get (some (.G (.vstr TYPE_PATH)
          [some (.G (.vstr "a") []), some (.G (.vstr "b") [])])) = some (some r) ∧
        r.Out = [some (.G (.vint64 9) [])] :=
  C3_set_get_roundtrip (.G (.vstr "r") [some (.G (.vstr "q") [])]) (.vstr TYPE_PATH)
    [some (.G (.vstr "a") []), some (.G (.vstr "b") [])] (.vint64 9)
    (by decide) (by decide) (by decide)
